import Mathlib

/-!
Verification of the hierarchical repository resolution and format-dispatch
storage engine of `daf_persistence` (`python/lsst/daf/persistence/posixStorage.py`),
as a shallow embedding.

Python strings are modelled as `List Char`; the filesystem is a finite
association of paths to file data, plus a current working directory.  The
`_parent` parent-linkage is modelled as an ordinary directory entry at that
name, which the spec (section 6) explicitly allows as a compatible
realisation of the symlink; accordingly `os.path.realpath` is modelled
without symlink resolution.
-/

set_option maxHeartbeats 1000000

deriving instance DecidableEq for Except

namespace DafP

/-- Python strings (paths, file contents, storage-format names). -/
abbrev Path := List Char

/-- A mapper value as stored in a `RepositoryCfg` or produced by the legacy
`_mapper` walk.  The dynamic type-resolution collaborator
(`importlib.import_module` + `getattr`, spec section 6) is modelled
symbolically: `resolved m s` stands for the symbol `s` looked up in
module `m`. -/
inductive MapperHandle where
  | name : Path → MapperHandle
  | resolved : (module : Path) → (symbol : Path) → MapperHandle
deriving DecidableEq

/-- The repository descriptor (`RepositoryCfg`), with the fields
`posixStorage.py` constructs and reads: `mapper`, `root`, `mapperArgs`,
`parents`, `isLegacyRepository`, `policy`. -/
structure RepositoryCfg where
  mapper : Option MapperHandle
  root : Option Path
  mapperArgs : Option Path
  parents : Option (List Path)
  isLegacyRepository : Bool
  policy : Option Path
deriving DecidableEq

/-- Data stored at a path: a directory, a yaml-serialised `RepositoryCfg`
(`yaml.dump`/`yaml.load` are modelled as storing and retrieving the typed
value), a text file (for `_mapper`), or an object serialised by a codec
collaborator (`objData codec obj`, with objects as opaque tokens). -/
inductive FSData where
  | dir : FSData
  | cfgData : RepositoryCfg → FSData
  | textData : Path → FSData
  | objData : (storageName : Path) → (obj : Nat) → FSData
deriving DecidableEq

/-- The filesystem: existing paths with their data, and the process's
current working directory (used only by `os.path.realpath`). -/
structure FS where
  entries : List (Path × FSData)
  cwd : Path
deriving DecidableEq

/-- Look up the data at a path (first entry wins, so updates prepend). -/
def FS.get (fs : FS) (p : Path) : Option FSData :=
  (fs.entries.find? (fun e => e.fst == p)).map (fun e => e.snd)

/-- Create or overwrite the entry at a path. -/
def FS.put (fs : FS) (p : Path) (d : FSData) : FS :=
  { fs with entries := (p, d) :: fs.entries }

/-- `os.path.exists`. -/
def pathExists (fs : FS) (p : Path) : Bool :=
  (fs.get p).isSome

/-- `os.path.join` for two components (posixpath semantics). -/
def osJoin (a b : Path) : Path :=
  if b.head? = some '/' then b
  else if a = [] then b
  else if a.getLast? = some '/' then a ++ b
  else a ++ '/' :: b

/-- `urllib.parse.urlparse(uri).path`, modelled for the two cases the
module documents itself to support (line 111: scheme `file` and no
scheme): a `file://` URI with empty netloc, or a plain path returned
unchanged. -/
def urlparsePath (p : Path) : Path :=
  if ("file://".data).isPrefixOf p then p.drop 7 else p

/-- `str.rstrip('/')`. -/
def rstripSlashes (p : Path) : Path :=
  (p.reverse.dropWhile (fun c => c == '/')).reverse

/-- `posixpath.dirname`: take everything up to and including the last
slash (empty when there is none), then strip trailing slashes from that
head unless it consists only of slashes. -/
def dirname (p : Path) : Path :=
  let head := (p.reverse.dropWhile (fun c => !(c == '/'))).reverse
  if head.all (fun c => c == '/') then head else rstripSlashes head

/-- The trailing-slash stripping of `parentSearch` (lines 396-397):
`while len(rootDir) > 1 and rootDir[-1] == '/': rootDir = rootDir[:-1]`.
The loop removes trailing slashes but never shortens the string below
one character, so its result is the rstrip of the string, except that a
non-empty all-slash string leaves a single slash behind. -/
def stripTrailingSlashes (p : Path) : Path :=
  if rstripSlashes p = [] then (if p = [] then [] else ['/'])
  else rstripSlashes p

/-- `os.path.realpath`, under this embedding's symlink-free filesystem
(the parent linkage is a real directory, spec section 6): an absolute
path is already real, a relative path is resolved against the current
working directory.  Dot segments do not occur in this development. -/
def realpath (fs : FS) (p : Path) : Path :=
  if p.head? = some '/' then p else osJoin fs.cwd p

/-- `glob.has_magic`: the characters that make a pattern a wildcard. -/
def isMagicChar (c : Char) : Bool :=
  c == '*' || c == '?' || c == '['

/-- Whether any component of a pattern contains a wildcard character. -/
def hasMagic (p : Path) : Bool :=
  p.any isMagicChar

/-- The index of the `]` terminating a character class, given the pattern
characters after the opening `[`.  Following `fnmatch.translate`: a
leading `!` negates, and a `]` directly after `[` or `[!` is a literal
member of the class; an unterminated class makes the `[` a literal. -/
def classCloseIdx (cs : List Char) : Option Nat :=
  let start : Nat :=
    match cs with
    | '!' :: ']' :: _ => 2
    | '!' :: _ => 1
    | ']' :: _ => 1
    | _ => 0
  match (cs.drop start).findIdx? (fun c => c == ']') with
  | none => none
  | some k => some (start + k)

/-- Membership of a character in class contents, with `a-b` ranges
(a trailing or leading `-` is a literal, as in `fnmatch`). -/
def charInRanges : Char → List Char → Bool
  | c, a :: '-' :: b :: rest =>
    (decide (a ≤ c ∧ c ≤ b)) || charInRanges c rest
  | c, a :: rest => c == a || charInRanges c rest
  | _, [] => false

/-- Character-class match, honouring a leading `!` negation. -/
def matchClass (c : Char) (contents : List Char) : Bool :=
  match contents with
  | '!' :: rest => !(charInRanges c rest)
  | _ => charInRanges c contents

/-- The recursion of `fnmatch.fnmatchcase`, with an explicit fuel
argument to make the lexicographic descent structural: every recursive
call shortens the combined length of pattern and name, so fuel
`ps.length + ns.length + 1` never runs out. -/
def fnmatchFuel : Nat → List Char → List Char → Bool
  | 0, _, _ => false
  | _ + 1, [], [] => true
  | _ + 1, [], _ :: _ => false
  | fuel + 1, '*' :: ps, [] => fnmatchFuel fuel ps []
  | fuel + 1, '*' :: ps, n :: ns =>
    fnmatchFuel fuel ps (n :: ns) || fnmatchFuel fuel ('*' :: ps) ns
  | _ + 1, '?' :: _, [] => false
  | fuel + 1, '?' :: ps, _ :: ns => fnmatchFuel fuel ps ns
  | _ + 1, '[' :: _, [] => false
  | fuel + 1, '[' :: ps, n :: ns =>
    match classCloseIdx ps with
    | none => n == '[' && fnmatchFuel fuel ps ns
    | some k => matchClass n (ps.take k) && fnmatchFuel fuel (ps.drop (k + 1)) ns
  | _ + 1, _ :: _, [] => false
  | fuel + 1, p :: ps, n :: ns => p == n && fnmatchFuel fuel ps ns

/-- `fnmatch.fnmatchcase` on a single path component: literal characters,
`*`, `?` and `[...]` classes. -/
def fnmatchChars (ps ns : List Char) : Bool :=
  fnmatchFuel (ps.length + ns.length + 1) ps ns

/-- One directory-level match as `glob` performs it: a literal component
must be equal; a wildcard component goes through `fnmatch` and never
matches a name starting with a dot unless the pattern also starts with
one. -/
def matchComponent (pat name : Path) : Bool :=
  if hasMagic pat then
    if name.head? = some '.' ∧ pat.head? ≠ some '.' then false
    else fnmatchChars pat name
  else pat == name

/-- Whole-path glob match: the pattern and the path are split at slashes
and matched level by level. -/
def globMatchPath (pat name : Path) : Bool :=
  let ps := pat.splitOn '/'
  let ns := name.splitOn '/'
  ps.length == ns.length && (ps.zip ns).all (fun q => matchComponent q.fst q.snd)

/-- `glob.glob` over the modelled filesystem.  A pattern without wildcard
characters degenerates to an existence test returning the pattern itself
(as in CPython's `glob0`); a wildcard pattern returns every existing path
it matches, in filesystem-entry order. -/
def globGlob (fs : FS) (pat : Path) : List Path :=
  if hasMagic pat then
    (fs.entries.map (fun e => e.fst)).dedup.filter (fun q => globMatchPath pat q)
  else if pathExists fs pat then [pat] else []

/-- The prefix-search `while` loop of `PosixStorage.parentSearch`
(lines 408-412): walk `dirname` upward from the candidate prefix until it
is empty, is `/`, or resolves to the same real path as `root`.  The fuel
argument bounds the iteration count; `dirname` shortens its argument on
every input this development evaluates the loop at, so fuel
`pp.length + 1` makes the bound unreachable. -/
def pfxLoop (fs : FS) (root : Path) : Nat → Path → Path
  | 0, pp => pp
  | fuel + 1, pp =>
    if pp = [] ∨ pp = ("/".data) then pp
    else if realpath fs pp = realpath fs root then pp
    else pfxLoop fs root fuel (dirname pp)

/-- The glob-and-follow-parents `while True` loop of
`PosixStorage.parentSearch` (lines 427-441).  `stripPfx` records the
precomputed comparison `pathPrefix != rootDir`.  Fuel bounds the descent
through `_parent` directories; each step requires a strictly longer
existing directory, so fuel `fs.entries.length + 1` is never exhausted. -/
def searchLoop (fs : FS) (rootDir strippedPath : Path) (stripPfx : Bool)
    (pathStripped : Option Path) (searchParents : Bool) : Nat → Path → Option (List Path)
  | 0, _ => none
  | fuel + 1, dir =>
    let paths := globGlob fs (osJoin dir strippedPath)
    if paths.isEmpty then
      if searchParents then
        let dir2 := osJoin dir ("_parent".data)
        if pathExists fs dir2 then
          searchLoop fs rootDir strippedPath stripPfx pathStripped searchParents fuel dir2
        else none
      else none
    else
      let paths2 := if stripPfx then paths.map (fun p => p.drop (rootDir.length + 1)) else paths
      let paths3 :=
        match pathStripped with
        | some s => paths2.map (fun p => p ++ s)
        | none => paths2
      some paths3

/-- `PosixStorage.parentSearch(root, path, searchParents)` (lines
380-441): separate a root-equivalent prefix from the path, strip a
bracketed HDU suffix, then glob for the remainder under the root and,
when `searchParents` is set, under successive `_parent` directories.
`none` models Python's `None` result.  The Python `pathPrefix` variable
is `none` exactly when the code sets it to Python `None` (root `/`,
absolute path). -/
def parentSearch (fs : FS) (root path0 : Path) (searchParents : Bool) : Option (List Path) :=
  let rootDir := stripTrailingSlashes root
  let init : Path × Option Path :=
    if (rootDir ++ ['/']).isPrefixOf path0 then
      (path0.drop (rootDir.length + 1), some rootDir)
    else if rootDir = ['/'] ∧ path0.head? = some '/' then
      (path0.drop 1, none)
    else
      let pp0 := dirname path0
      let pp := pfxLoop fs root (pp0.length + 1) pp0
      if pp = ['/'] then (path0.drop 1, some pp)
      else if pp ≠ [] then (path0.drop (pp.length + 1), some pp)
      else (path0, some [])
  let path1 := init.fst
  let pathPfx := init.snd
  let fb := path1.findIdx? (fun c => c == '[')
  let strippedPath :=
    match fb with
    | none => path1
    | some i => path1.take i
  let pathStripped : Option Path :=
    match fb with
    | none => none
    | some i => path1.drop i
  let stripPfx : Bool := !(pathPfx == some rootDir)
  searchLoop fs rootDir strippedPath stripPfx pathStripped searchParents
    (fs.entries.length + 1) rootDir

/-- The error outcomes the embedded operations can raise.  CPython
detail: the `raise` at line 312 applies `%` to a format string with no
placeholder, so the exception actually raised there is a `TypeError`; in
either case the call fails with an exception, which is all this
development depends on. -/
inductive Err where
  | unqualifiedMapperName : (name file : Path) → Err
  | deserialization : Path → Err
  | noSuchFile : (kind p : Path) → Err
  | unhandledStorageName : Path → Err
  | typeError : Err
  | emptyLocations : Err
  | badReference : Err
deriving DecidableEq

/-- `PosixStorage._getRepositoryCfg` (lines 66-78): look for
`repositoryCfg.yaml` under the URI's path; on success, a deserialised
cfg whose empty root is backfilled with the path.  A file that does not
deserialise to a cfg is a `DeserializationError` (spec section 7). -/
def _getRepositoryCfg (fs : FS) (uri : Path) : Except Err (Option RepositoryCfg) :=
  let path := urlparsePath uri
  let loc := osJoin path ("repositoryCfg.yaml".data)
  match fs.get loc with
  | none => .ok none
  | some (.cfgData c) =>
    if c.root = none then .ok (some { c with root := some path })
    else .ok (some c)
  | some _ => .error (.deserialization loc)

/-- The `while not os.path.exists(...)` legacy-marker walk of
`PosixStorage.getMapperClass` (lines 141-149): return the base path
holding a `_mapper` file, following `_parent` directories, or `none`
when the linkage ends first.  Fuel bounds the descent; each step needs a
strictly longer existing `_parent` entry, so `fs.entries.length + 1`
steps are never exhausted. -/
def mapperWalk (fs : FS) : Nat → Path → Option Path
  | 0, _ => none
  | fuel + 1, basePath =>
    if pathExists fs (osJoin basePath ("_mapper".data)) then some basePath
    else if pathExists fs (osJoin basePath ("_parent".data)) then
      mapperWalk fs fuel (osJoin basePath ("_parent".data))
    else none

/-- First line of a text file, as `f.readline()` reads it (without the
trailing newline, which `.strip()` removes anyway). -/
def firstLine (content : Path) : Path :=
  content.takeWhile (fun c => !(c == '\n'))

/-- Python `str.strip()`. -/
def stripWs (p : Path) : Path :=
  ((p.dropWhile Char.isWhitespace).reverse.dropWhile Char.isWhitespace).reverse

/-- `PosixStorage.getMapperClass` (lines 121-164): an empty root yields
`none`; a persisted cfg's mapper field is authoritative; otherwise the
legacy `_mapper` walk runs, an unqualified (dot-free) name raises, and a
qualified one resolves the symbol after the last dot in the module named
by the rest.  `importlib.import_module`/`getattr` are the external
dynamic-lookup collaborator, modelled symbolically by
`MapperHandle.resolved`.  Opening a found `_mapper` entry that is not a
text file fails (modelled as a deserialization error). -/
def getMapperClass (fs : FS) (root : Path) : Except Err (Option MapperHandle) :=
  if root = [] then .ok none
  else
    match _getRepositoryCfg fs root with
    | .error e => .error e
    | .ok (some cfg) => .ok cfg.mapper
    | .ok none =>
      match mapperWalk fs (fs.entries.length + 1) root with
      | none => .ok none
      | some basePath =>
        let mapperFile := osJoin basePath ("_mapper".data)
        match fs.get mapperFile with
        | some (.textData content) =>
          let mapperName := stripWs (firstLine content)
          let components := mapperName.splitOn '.'
          if components.length ≤ 1 then
            .error (.unqualifiedMapperName mapperName mapperFile)
          else
            .ok (some (.resolved (List.intercalate (".".data) components.dropLast)
              (components.getLastD [])))
        | _ => .error (.deserialization mapperFile)

/-- Modelled from the spec: `safeFileIo.FileForWriteOnceCompareSame` is
not under src/.  Spec section 4.6: write to a temporary and, on exit,
discard it when the destination already holds identical bytes, otherwise
atomically rename it over the destination.  In the functional model the
net effect is: no change on identical content, otherwise the new
content appears at the destination. -/
def fileForWriteOnceCompareSame (fs : FS) (p : Path) (d : FSData) : FS :=
  if fs.get p = some d then fs else fs.put p d

/-- `os.makedirs`, modelled as creating the target directory entry
(intermediate directories are not tracked by any operation in this
development). -/
def makedirs (fs : FS) (p : Path) : FS :=
  fs.put p .dir

/-- `PosixStorage.putRepositoryCfg` (lines 99-119), with Python object
aliasing made explicit: cfgs live on a heap (a list of values indexed by
references), the argument is a reference, and `copy.copy(cfg)` at line
108 allocates a fresh reference whose value is then mutated.  Legacy
cfgs return immediately.  When `loc` is absent or equals the cfg's root,
the root field is cleared on the copy and the cfg's own root becomes the
target location (Python would raise a `TypeError` in `urlparse` if that
root were `None`).  The yaml document is written through
`FileForWriteOnceCompareSame` at `<loc>/repositoryCfg.yaml`, creating
the directory first when absent. -/
def putRepositoryCfgH (fs : FS) (heap : List RepositoryCfg) (cfgRef : Nat)
    (loc : Option Path) : Except Err (FS × List RepositoryCfg) :=
  match heap[cfgRef]? with
  | none => .error .badReference
  | some cfg0 =>
    if cfg0.isLegacyRepository then .ok (fs, heap)
    else
      let needsCopy : Bool := loc.isNone || (cfg0.root == loc)
      if needsCopy then
        let copyRef := heap.length
        let heap2 := (heap ++ [cfg0]).set copyRef { cfg0 with root := none }
        match cfg0.root with
        | none => .error .typeError
        | some l =>
          let locPath := urlparsePath l
          let fs2 := if pathExists fs locPath then fs else makedirs fs locPath
          let locFile := osJoin locPath ("repositoryCfg.yaml".data)
          .ok (fileForWriteOnceCompareSame fs2 locFile (.cfgData { cfg0 with root := none }),
            heap2)
      else
        match loc with
        | none => .error .typeError
        | some l =>
          let locPath := urlparsePath l
          let fs2 := if pathExists fs locPath then fs else makedirs fs locPath
          let locFile := osJoin locPath ("repositoryCfg.yaml".data)
          .ok (fileForWriteOnceCompareSame fs2 locFile (.cfgData cfg0), heap)

/-- `PosixStorage.putRepositoryCfg` viewed purely by its filesystem
effect: run the heap-explicit embedding on a one-cell heap. -/
def putRepositoryCfg (fs : FS) (cfg : RepositoryCfg) (loc : Option Path) : Except Err FS :=
  (putRepositoryCfgH fs [cfg] 0 loc).map (fun r => r.fst)

/-- A `ButlerLocation` as `read`/`write`/`butlerLocationExists` consume
it: the declared storage-format name and the location strings.
`LogicalLocation` template substitution with `additionalData` is an
external collaborator modelled as the identity on the location string;
the `hasattr(pythonType, 'butlerRead')`/`'butlerWrite'` capability
checks on the (dynamically imported) python type are the two Booleans. -/
structure ButlerLocation where
  storageName : Path
  locations : List Path
  hasButlerRead : Bool
  hasButlerWrite : Bool
deriving DecidableEq

/-- What a read produced for one location: which codec was dispatched,
at which absolute path, and what the filesystem held there.  Codec
bodies are external collaborators (spec section 1), so the engine's
observable duty is exactly this triple. -/
inductive ReadItem where
  | loaded : (storageName : Path) → (path : Path) → (data : Option FSData) → ReadItem
deriving DecidableEq

/-- Result of `PosixStorage.read`: either the self-deserialising
capability escape hatch was taken, or one item per location string. -/
inductive ReadResult where
  | viaCapability : ReadResult
  | items : List ReadItem → ReadResult
deriving DecidableEq

/-- One location of `PosixStorage.read` (lines 263-301): `PafStorage`
and `YamlStorage` hand the path straight to their codec; `PickleStorage`,
`FitsCatalogStorage` and `ConfigStorage` first fail with their
per-format no-such-file `RuntimeError` when the path does not exist;
every other name falls through to the generic persistence engine. -/
def readOne (fs : FS) (storageName locationString : Path) : Except Err ReadItem :=
  if storageName = ("PafStorage".data) then
    .ok (.loaded storageName locationString (fs.get locationString))
  else if storageName = ("YamlStorage".data) then
    .ok (.loaded storageName locationString (fs.get locationString))
  else if storageName = ("PickleStorage".data) then
    if pathExists fs locationString then
      .ok (.loaded storageName locationString (fs.get locationString))
    else .error (.noSuchFile ("pickle".data) locationString)
  else if storageName = ("FitsCatalogStorage".data) then
    if pathExists fs locationString then
      .ok (.loaded storageName locationString (fs.get locationString))
    else .error (.noSuchFile ("FITS catalog".data) locationString)
  else if storageName = ("ConfigStorage".data) then
    if pathExists fs locationString then
      .ok (.loaded storageName locationString (fs.get locationString))
    else .error (.noSuchFile ("config".data) locationString)
  else
    .ok (.loaded storageName locationString (fs.get locationString))

/-- `PosixStorage.read` (lines 234-303): after the capability escape
hatch, each location string is resolved by
`os.path.join(self.root, locationString)` (line 264) and dispatched by
format name. -/
def read (fs : FS) (root : Path) (bl : ButlerLocation) : Except Err ReadResult :=
  if bl.hasButlerRead then .ok .viaCapability
  else do
    let items ← bl.locations.mapM (fun l => readOne fs bl.storageName (osJoin root l))
    return .items items

/-- Result of `PosixStorage.write`: either the self-serialising
capability escape hatch was taken, or the filesystem after the write. -/
inductive WriteOutcome where
  | delegated : WriteOutcome
  | wrote : FS → WriteOutcome
deriving DecidableEq

/-- `PosixStorage.write` (lines 170-232): after the capability escape
hatch, the target is `os.path.join(self.root, locations[0])` (line 201,
inside the `SafeFilename` atomic scope, whose net effect in this
functional model is the final content at the destination) and the
format-named codec serialises the object there; the codec bodies are
external, so the model records which codec stored which object where.
An empty locations list is an `IndexError` in Python. -/
def write (fs : FS) (root : Path) (bl : ButlerLocation) (obj : Nat) : Except Err WriteOutcome :=
  if bl.hasButlerWrite then .ok .delegated
  else
    match bl.locations with
    | [] => .error .emptyLocations
    | l :: _ =>
      let locationString := osJoin root l
      .ok (.wrote (fs.put locationString (.objData bl.storageName obj)))

/-- The storage-format names `butlerLocationExists` recognises
(lines 308-309). -/
def recognizedStorageNames : List Path :=
  [ ("BoostStorage".data), ("FitsStorage".data), ("PafStorage".data),
    ("PickleStorage".data), ("ConfigStorage".data), ("FitsCatalogStorage".data)]

/-- Python truthiness of a `parentSearch` result (`if obj:` at
line 316): `None` and the empty list are falsy. -/
def pyTruthy : Option (List Path) → Bool
  | none => false
  | some l => !l.isEmpty

/-- `PosixStorage.butlerLocationExists` (lines 305-318): an
unrecognised storage-format name raises before any location is
examined; otherwise each location string is searched with
`parentSearch(self.root, path, searchParents=False)` and the first
truthy result yields `True`. -/
def butlerLocationExists (fs : FS) (root : Path) (bl : ButlerLocation) : Except Err Bool :=
  if bl.storageName ∈ recognizedStorageNames then
    .ok (bl.locations.any (fun l => pyTruthy (parentSearch fs root l false)))
  else .error (.unhandledStorageName bl.storageName)

/-! ## Helper lemmas -/

theorem FS.get_put (fs : FS) (p q : Path) (d : FSData) :
    (fs.put p d).get q = if q = p then some d else fs.get q := by
  by_cases h : q = p
  · subst h
    simp [FS.get, FS.put, List.find?]
  · have h2 : (p == q) = false := by
      simp only [beq_eq_false_iff_ne, ne_eq]
      exact fun e => h e.symm
    simp [FS.get, FS.put, List.find?, h2, h]

theorem searchLoop_ne_some_nil (fs : FS) (rootDir sp2 : Path) (b : Bool)
    (ps : Option Path) (sP : Bool) (fuel : Nat) :
    ∀ dir, searchLoop fs rootDir sp2 b ps sP fuel dir ≠ some [] := by
  induction fuel with
  | zero =>
    intro dir
    simp [searchLoop]
  | succ n ih =>
    intro dir
    simp only [searchLoop]
    by_cases hglob : (globGlob fs (osJoin dir sp2)).isEmpty
    · cases sP with
      | false => simp [hglob]
      | true =>
        simp only [hglob, if_true]
        by_cases hpar : pathExists fs (osJoin dir ("_parent".data))
        · simpa [hpar] using ih (osJoin dir ("_parent".data))
        · simp [hpar]
    · simp only [hglob, if_false]
      have hne : globGlob fs (osJoin dir sp2) ≠ [] := by
        simpa [List.isEmpty_iff] using hglob
      intro hcontra
      have h3 := Option.some.inj hcontra
      rcases ps with _ | s <;> by_cases hb : b <;>
        simp [hb, List.map_eq_nil_iff, hne] at h3

/-! ## C9: the parent-chain search never returns an empty list -/

/-- C9: for every root, path and followParents flag, `parentSearch`
returns either `none` (not-found) or a non-empty list of paths, never
`some []`; so callers (such as `butlerLocationExists` at line 316) may
test the result's truthiness to decide existence. -/
theorem parentSearch_never_empty_list (fs : FS) (root p : Path) (sp : Bool) :
    parentSearch fs root p sp ≠ some [] := by
  simp only [parentSearch]
  apply searchLoop_ne_some_nil

/-- Witness: the C9 theorem applied at a concrete input. -/
theorem parentSearch_never_empty_list_witness :
    parentSearch ⟨[], ("/c".data)⟩ ("/r".data) ("f".data) true ≠ some [] :=
  parentSearch_never_empty_list ⟨[], ("/c".data)⟩ ("/r".data) ("f".data) true

/-! ## C4: saving a legacy-flagged descriptor is a no-op -/

/-- C4: for every descriptor whose legacy flag is set, `putRepositoryCfg`
leaves the filesystem exactly as it was: no `repositoryCfg` file is
created or modified at any location, regardless of the prior state. -/
theorem putRepositoryCfg_legacy_noop (fs : FS) (cfg : RepositoryCfg) (loc : Option Path)
    (h : cfg.isLegacyRepository = true) :
    putRepositoryCfg fs cfg loc = .ok fs := by
  simp [putRepositoryCfg, putRepositoryCfgH, h, Except.map]

/-- Witness: the C4 theorem applied at a concrete legacy descriptor and a
non-trivial prior filesystem. -/
theorem putRepositoryCfg_legacy_noop_witness :
    putRepositoryCfg ⟨[(("/repo".data), .dir)], ("/c".data)⟩
      ⟨none, some ("/repo".data), none, none, true, none⟩ (some ("/repo".data)) =
      .ok ⟨[(("/repo".data), .dir)], ("/c".data)⟩ :=
  putRepositoryCfg_legacy_noop ⟨[(("/repo".data), .dir)], ("/c".data)⟩
    ⟨none, some ("/repo".data), none, none, true, none⟩ (some ("/repo".data)) rfl

/-! ## C7: existence check with an unrecognised storage-format name -/

/-- C7: for every structured location whose declared storage-format name
is not among the six recognised names, `butlerLocationExists` fails with
a hard error before examining any location, instead of returning a
boolean. -/
theorem butlerLocationExists_unrecognized (fs : FS) (root : Path) (bl : ButlerLocation)
    (h : bl.storageName ∉ recognizedStorageNames) :
    butlerLocationExists fs root bl = .error (.unhandledStorageName bl.storageName) := by
  simp [butlerLocationExists, h]

/-- Witness: `YamlStorage` is handled by `read` but is not in the
recognised set of the existence check, so the C7 theorem applies to it. -/
theorem butlerLocationExists_unrecognized_witness :
    butlerLocationExists ⟨[], ("/c".data)⟩ ("/r".data)
      ⟨ ("YamlStorage".data), [ ("f".data)], false, false⟩ =
      .error (.unhandledStorageName ("YamlStorage".data)) :=
  butlerLocationExists_unrecognized ⟨[], ("/c".data)⟩ ("/r".data)
    ⟨ ("YamlStorage".data), [ ("f".data)], false, false⟩ (by decide)

/-! ## C8: mapper resolution with nothing to find returns none -/

/-- C8: for every root under which there is no persisted descriptor, no
`_mapper` marker file and no `_parent` linkage, `getMapperClass` returns
`none` without raising. -/
theorem getMapperClass_nothing_found (fs : FS) (root : Path)
    (hcfg : fs.get (osJoin (urlparsePath root) ("repositoryCfg.yaml".data)) = none)
    (hm : pathExists fs (osJoin root ("_mapper".data)) = false)
    (hp : pathExists fs (osJoin root ("_parent".data)) = false) :
    getMapperClass fs root = .ok none := by
  by_cases hroot : root = []
  · simp [getMapperClass, hroot]
  · simp [getMapperClass, hroot, _getRepositoryCfg, hcfg, mapperWalk, hm, hp]

/-- Witness: the C8 theorem applied at a concrete bare repository. -/
theorem getMapperClass_nothing_found_witness :
    getMapperClass ⟨[(("/r".data), .dir)], ("/c".data)⟩ ("/r".data) = .ok none :=
  getMapperClass_nothing_found ⟨[(("/r".data), .dir)], ("/c".data)⟩ ("/r".data)
    (by decide) (by decide) (by decide)

/-! ## C10: saving never mutates the caller's descriptor object -/

/-- C10: for every descriptor reference and location argument, a
successful `putRepositoryCfg` leaves the caller's in-memory cfg object
unchanged: the implicit-root optimisation clears the root field only on
the `copy.copy` at line 108, never on the argument itself. -/
theorem putRepositoryCfg_preserves_caller (fs : FS) (heap : List RepositoryCfg)
    (r : Nat) (loc : Option Path) (fs2 : FS) (heap2 : List RepositoryCfg)
    (h : putRepositoryCfgH fs heap r loc = .ok (fs2, heap2)) :
    heap2[r]? = heap[r]? := by
  unfold putRepositoryCfgH at h
  cases hget : heap[r]? with
  | none =>
    rw [hget] at h
    simp at h
  | some cfg0 =>
    rw [hget] at h
    simp only [] at h
    have hr : r < heap.length := by
      rcases List.getElem?_eq_some_iff.mp hget with ⟨hlt, _⟩
      exact hlt
    by_cases hleg : cfg0.isLegacyRepository = true
    · rw [if_pos hleg] at h
      simp only [Except.ok.injEq, Prod.mk.injEq] at h
      obtain ⟨h1, h2⟩ := h
      subst h2
      exact hget
    · rw [if_neg hleg] at h
      by_cases hcopy : (loc.isNone || (cfg0.root == loc)) = true
      · rw [if_pos hcopy] at h
        cases hroot : cfg0.root with
        | none =>
          rw [hroot] at h
          simp at h
        | some l =>
          rw [hroot] at h
          simp only [Except.ok.injEq, Prod.mk.injEq] at h
          obtain ⟨h1, h2⟩ := h
          subst h2
          rw [List.getElem?_set_ne (show heap.length ≠ r by omega),
            List.getElem?_append_left hr]
          exact hget
      · rw [if_neg hcopy] at h
        cases loc with
        | none => simp at hcopy
        | some l =>
          simp only [Except.ok.injEq, Prod.mk.injEq] at h
          obtain ⟨h1, h2⟩ := h
          subst h2
          exact hget

/-! ## C5: legacy mapper-name resolution -/

theorem splitOnP_append_last (pr : Char → Bool) (m s : List Char)
    (hs : ∀ x ∈ s, ¬pr x = true) (c : Char) (hc : pr c = true) :
    List.splitOnP pr (m ++ c :: s) = List.splitOnP pr m ++ [s] := by
  induction m with
  | nil =>
    rw [List.nil_append, List.splitOnP_cons, if_pos hc,
      List.splitOnP_eq_single pr s hs, List.splitOnP_nil]
    rfl
  | cons d m ih =>
    rw [List.cons_append, List.splitOnP_cons, List.splitOnP_cons]
    by_cases hd : pr d = true
    · rw [if_pos hd, if_pos hd, ih]
      rfl
    · rw [if_neg hd, if_neg hd, ih]
      cases hh : List.splitOnP pr m with
      | nil => exact absurd hh (List.splitOnP_ne_nil pr m)
      | cons a t => simp [List.modifyHead]

theorem splitOn_no_dot (s : List Char) (h : '.' ∉ s) :
    s.splitOn '.' = [s] := by
  apply List.splitOnP_eq_single
  intro x hx
  simp only [beq_iff_eq]
  exact fun e => h (e ▸ hx)

theorem splitOn_append_dot (m s : List Char) (h : '.' ∉ s) :
    (m ++ '.' :: s).splitOn '.' = m.splitOn '.' ++ [s] := by
  unfold List.splitOn
  apply splitOnP_append_last
  · intro x hx
    simp only [beq_iff_eq]
    exact fun e => h (e ▸ hx)
  · simp

theorem getMapperClass_legacy_eval (fs : FS) (root content : Path)
    (hroot : root ≠ [])
    (hcfg : fs.get (osJoin (urlparsePath root) ("repositoryCfg.yaml".data)) = none)
    (hm : fs.get (osJoin root ("_mapper".data)) = some (.textData content)) :
    getMapperClass fs root =
      (if ((stripWs (firstLine content)).splitOn '.').length ≤ 1 then
        .error (.unqualifiedMapperName (stripWs (firstLine content))
          (osJoin root ("_mapper".data)))
      else
        .ok (some (.resolved
          (List.intercalate (".".data) ((stripWs (firstLine content)).splitOn '.').dropLast)
          (((stripWs (firstLine content)).splitOn '.').getLastD [])))) := by
  have hg : _getRepositoryCfg fs root = .ok none := by
    simp only [_getRepositoryCfg, hcfg]
  have hx : pathExists fs (osJoin root ("_mapper".data)) = true := by
    rw [pathExists, hm]
    rfl
  have hmw : mapperWalk fs (fs.entries.length + 1) root = some root := by
    simp only [mapperWalk, hx, if_true]
  simp only [getMapperClass]
  rw [if_neg hroot, hg]
  simp only []
  rw [hmw]
  simp only []
  rw [hm]

/-- C5: for every root (with no persisted descriptor) whose `_mapper`
marker file's first line is a dotted-qualified name `M ++ "." ++ S` with
`S` dot-free (such as `pkg.sub.ClassName`), `getMapperClass` resolves
the symbol `S` from the module `M`; and for every such root whose
`_mapper` first line contains no dot at all, `getMapperClass` fails with
a fatal error (`RuntimeError("Unqualified mapper name ...")`, the
ConfigurationError of spec section 7). -/
theorem getMapperClass_mapper_file (fs : FS) (root content : Path)
    (hroot : root ≠ [])
    (hcfg : fs.get (osJoin (urlparsePath root) ("repositoryCfg.yaml".data)) = none)
    (hm : fs.get (osJoin root ("_mapper".data)) = some (.textData content)) :
    (∀ m s, stripWs (firstLine content) = m ++ '.' :: s → '.' ∉ s →
        getMapperClass fs root = .ok (some (.resolved m s))) ∧
    ('.' ∉ stripWs (firstLine content) →
        getMapperClass fs root =
          .error (.unqualifiedMapperName (stripWs (firstLine content))
            (osJoin root ("_mapper".data)))) := by
  have he := getMapperClass_legacy_eval fs root content hroot hcfg hm
  constructor
  · intro m s hname hs
    have hsplit : (stripWs (firstLine content)).splitOn '.' = m.splitOn '.' ++ [s] := by
      rw [hname]
      exact splitOn_append_dot m s hs
    have hlen : ¬((stripWs (firstLine content)).splitOn '.').length ≤ 1 := by
      rw [hsplit]
      have h1 : m.splitOn '.' ≠ [] := List.splitOnP_ne_nil _ m
      have h2 : 0 < (m.splitOn '.').length := List.length_pos.mpr h1
      simp only [List.length_append, List.length_cons, List.length_nil]
      omega
    rw [he, if_neg hlen, hsplit, List.dropLast_concat, List.getLastD_concat]
    have hi : List.intercalate (".".data) (m.splitOn '.') = m := by
      have h0 : (".".data) = ['.'] := rfl
      rw [h0]
      exact List.intercalate_splitOn m '.'
    rw [hi]
  · intro hnd
    have hsplit : (stripWs (firstLine content)).splitOn '.' = [stripWs (firstLine content)] :=
      splitOn_no_dot _ hnd
    have hlen : ((stripWs (firstLine content)).splitOn '.').length ≤ 1 := by
      rw [hsplit]
      simp
    rw [he, if_pos hlen]

/-- Witness: the C5 theorem applied at a concrete repository whose
`_mapper` holds `pkg.sub.ClassName`, and one whose `_mapper` holds the
unqualified `ClassName`. -/
theorem getMapperClass_mapper_file_witness :
    getMapperClass ⟨[(("/r".data), .dir),
        (("/r/_mapper".data), .textData ("pkg.sub.ClassName".data))], ("/c".data)⟩ ("/r".data) =
      .ok (some (.resolved ("pkg.sub".data) ("ClassName".data))) ∧
    getMapperClass ⟨[(("/q".data), .dir),
        (("/q/_mapper".data), .textData ("ClassName".data))], ("/c".data)⟩ ("/q".data) =
      .error (.unqualifiedMapperName ("ClassName".data) ("/q/_mapper".data)) := by
  constructor
  · exact (getMapperClass_mapper_file
      ⟨[(("/r".data), .dir),
        (("/r/_mapper".data), .textData ("pkg.sub.ClassName".data))], ("/c".data)⟩
      ("/r".data) ("pkg.sub.ClassName".data)
      (by decide) (by decide) (by decide)).1 ("pkg.sub".data) ("ClassName".data)
      (by decide) (by decide)
  · have h := (getMapperClass_mapper_file
      ⟨[(("/q".data), .dir),
        (("/q/_mapper".data), .textData ("ClassName".data))], ("/c".data)⟩
      ("/q".data) ("ClassName".data)
      (by decide) (by decide) (by decide)).2 (by decide)
    simpa using h

/-! ## C3: descriptor save/load round trip through the implicit root -/

theorem fileForWriteOnceCompareSame_get (fs : FS) (p : Path) (d : FSData) :
    (fileForWriteOnceCompareSame fs p d).get p = some d := by
  unfold fileForWriteOnceCompareSame
  by_cases h : fs.get p = some d
  · simp [h]
  · simp [h, FS.get_put]

/-- C3: for every non-legacy descriptor whose root field equals the
location it is saved to, `putRepositoryCfg` (which clears the root field
on the copy so that it is implicit in the file's location) followed by
`_getRepositoryCfg` at that location yields the original descriptor
back; in particular its root field equals the original location.  The
location is a plain path (no URI scheme), so `urlparse` leaves it
unchanged. -/
theorem putRepositoryCfg_roundtrip (fs : FS) (cfg : RepositoryCfg) (L : Path)
    (hleg : cfg.isLegacyRepository = false) (hroot : cfg.root = some L)
    (hplain : urlparsePath L = L) :
    ∃ fs2, putRepositoryCfg fs cfg (some L) = .ok fs2 ∧
      _getRepositoryCfg fs2 L = .ok (some cfg) ∧ cfg.root = some L := by
  have hcfg2 : { cfg with root := some L } = cfg := by
    cases cfg
    simp_all
  have hcopy : ((some L).isNone || (cfg.root == some L)) = true := by
    simp [hroot]
  use fileForWriteOnceCompareSame (if pathExists fs L then fs else makedirs fs L)
    (osJoin L ("repositoryCfg.yaml".data)) (.cfgData { cfg with root := none })
  refine ⟨?_, ?_, hroot⟩
  · simp [putRepositoryCfg, putRepositoryCfgH, hleg, hroot, hcopy, hplain, Except.map]
  · simp only [_getRepositoryCfg, hplain]
    rw [fileForWriteOnceCompareSame_get]
    simpa using hcfg2

/-- Witness: the C3 theorem applied at a concrete descriptor and
location. -/
theorem putRepositoryCfg_roundtrip_witness :
    ∃ fs2, putRepositoryCfg ⟨[], ("/c".data)⟩
        ⟨some (.name ("M".data)), some ("/repo".data), none, some [], false, none⟩
        (some ("/repo".data)) = .ok fs2 ∧
      _getRepositoryCfg fs2 ("/repo".data) =
        .ok (some ⟨some (.name ("M".data)), some ("/repo".data), none, some [], false, none⟩) ∧
      (⟨some (.name ("M".data)), some ("/repo".data), none, some [], false,
        none⟩ : RepositoryCfg).root = some ("/repo".data) :=
  putRepositoryCfg_roundtrip ⟨[], ("/c".data)⟩
    ⟨some (.name ("M".data)), some ("/repo".data), none, some [], false, none⟩
    ("/repo".data) rfl rfl (by decide)

/-- Witness: the C10 theorem applied at a concrete non-legacy descriptor
saved to its own implicit root location. -/
theorem putRepositoryCfg_preserves_caller_witness :
    ∃ fs2 heap2,
      putRepositoryCfgH ⟨[], ("/c".data)⟩
          [⟨none, some ("/repo".data), none, none, false, none⟩] 0 none =
        .ok (fs2, heap2) ∧
      heap2[0]? = some ⟨none, some ("/repo".data), none, none, false, none⟩ :=
  ⟨_, _, rfl, by
    rw [putRepositoryCfg_preserves_caller ⟨[], ("/c".data)⟩
      [⟨none, some ("/repo".data), none, none, false, none⟩] 0 none _ _ rfl]
    rfl⟩

/-! ## C2: reads and writes resolve against the bound root by plain join -/

/-- C2 (amended): for every read request (shown for the `PickleStorage`
codec path with a single location string), the location is resolved by
`os.path.join(self.root, locationString)` — not through the parent-chain
walker — so the read succeeds exactly when the file exists at
`root/location` and otherwise fails with the per-format NotFound error;
and a write always targets the local root only: it creates exactly the
entry at `root/locations[0]` and changes nothing else. -/
theorem read_write_local_root (fs : FS) (root l : Path) (obj : Nat)
    (bl : ButlerLocation)
    (hsn : bl.storageName = ("PickleStorage".data))
    (hlocs : bl.locations = [l])
    (hnr : bl.hasButlerRead = false) (hnw : bl.hasButlerWrite = false) :
    (read fs root bl =
      if pathExists fs (osJoin root l) then
        .ok (.items [.loaded ("PickleStorage".data) (osJoin root l)
          (fs.get (osJoin root l))])
      else .error (.noSuchFile ("pickle".data) (osJoin root l))) ∧
    (∃ fs2, write fs root bl obj = .ok (.wrote fs2) ∧
      fs2.get (osJoin root l) = some (.objData ("PickleStorage".data) obj) ∧
      ∀ q, q ≠ osJoin root l → fs2.get q = fs.get q) := by
  constructor
  · cases hex : pathExists fs (osJoin root l) with
    | true =>
      simp [read, hnr, hlocs, readOne, hsn, hex, List.mapM, List.mapM.loop,
        Bind.bind, Except.bind, pure, Except.pure]
    | false =>
      simp [read, hnr, hlocs, readOne, hsn, hex, List.mapM, List.mapM.loop,
        Bind.bind, Except.bind, pure, Except.pure]
  · simp only [write, hnw, Bool.false_eq_true, if_false, hlocs]
    refine ⟨fs.put (osJoin root l) (.objData bl.storageName obj), rfl, ?_, ?_⟩
    · rw [FS.get_put, if_pos rfl, hsn]
    · intro q hq
      rw [FS.get_put, if_neg hq]

/-- Witness: the C2 theorem applied at a concrete filesystem, root,
location and object. -/
theorem read_write_local_root_witness :
    (read ⟨[(("/r0".data), .dir), (("/r0/f".data), .objData ("PickleStorage".data) 7)],
        ("/c".data)⟩ ("/r0".data)
        ⟨("PickleStorage".data), [("f".data)], false, false⟩ =
      if pathExists ⟨[(("/r0".data), .dir),
          (("/r0/f".data), .objData ("PickleStorage".data) 7)], ("/c".data)⟩
          (osJoin ("/r0".data) ("f".data)) then
        .ok (.items [.loaded ("PickleStorage".data) (osJoin ("/r0".data) ("f".data))
          (FS.get ⟨[(("/r0".data), .dir),
            (("/r0/f".data), .objData ("PickleStorage".data) 7)], ("/c".data)⟩
            (osJoin ("/r0".data) ("f".data)))])
      else .error (.noSuchFile ("pickle".data) (osJoin ("/r0".data) ("f".data)))) ∧
    (∃ fs2, write ⟨[(("/r0".data), .dir),
        (("/r0/f".data), .objData ("PickleStorage".data) 7)], ("/c".data)⟩
        ("/r0".data) ⟨("PickleStorage".data), [("f".data)], false, false⟩ 9 =
        .ok (.wrote fs2) ∧
      fs2.get (osJoin ("/r0".data) ("f".data)) =
        some (.objData ("PickleStorage".data) 9) ∧
      ∀ q, q ≠ osJoin ("/r0".data) ("f".data) →
        fs2.get q = FS.get ⟨[(("/r0".data), .dir),
          (("/r0/f".data), .objData ("PickleStorage".data) 7)], ("/c".data)⟩ q) :=
  read_write_local_root
    ⟨[(("/r0".data), .dir), (("/r0/f".data), .objData ("PickleStorage".data) 7)],
      ("/c".data)⟩
    ("/r0".data) ("f".data) 9
    ⟨("PickleStorage".data), [("f".data)], false, false⟩ rfl rfl rfl rfl

/-- Counterexample to C2 as literally stated: a dataset that exists only
in the ancestor repository (reachable through the `_parent` linkage, as
`parentSearch` itself demonstrates) makes `read` fail with the
per-format NotFound error, because `read` joins the location string
directly onto the bound root (line 264) instead of resolving it through
the parent-chain walker. -/
theorem read_not_via_parent_chain_counterexample :
    pathExists ⟨[(("/r0".data), .dir), (("/r0/_parent".data), .dir),
        (("/r0/_parent/f".data), .objData ("PickleStorage".data) 7)], ("/c".data)⟩
      ("/r0/_parent/f".data) = true ∧
    parentSearch ⟨[(("/r0".data), .dir), (("/r0/_parent".data), .dir),
        (("/r0/_parent/f".data), .objData ("PickleStorage".data) 7)], ("/c".data)⟩
      ("/r0".data) ("f".data) true = some [("_parent/f".data)] ∧
    read ⟨[(("/r0".data), .dir), (("/r0/_parent".data), .dir),
        (("/r0/_parent/f".data), .objData ("PickleStorage".data) 7)], ("/c".data)⟩
      ("/r0".data) ⟨("PickleStorage".data), [("f".data)], false, false⟩ =
      .error (.noSuchFile ("pickle".data) ("/r0/f".data)) := by
  decide

/-! ## Path-arithmetic lemmas for the parentSearch theorems -/

theorem rstripSlashes_pfx (q : Path) : rstripSlashes q <+: q := by
  unfold rstripSlashes
  conv_rhs => rw [← List.reverse_reverse q]
  exact List.reverse_prefix.mpr (List.dropWhile_suffix _)

theorem prefix_head? {l₁ l₂ : List Char} (h : l₁ <+: l₂) (hne : l₁ ≠ []) :
    l₁.head? = l₂.head? := by
  obtain ⟨t, rfl⟩ := h
  cases l₁ with
  | nil => exact absurd rfl hne
  | cons a u => rfl

theorem dirname_pfx (p : Path) : dirname p <+: p := by
  unfold dirname
  have hh : (p.reverse.dropWhile (fun c => !(c == '/'))).reverse <+: p := by
    conv_rhs => rw [← List.reverse_reverse p]
    exact List.reverse_prefix.mpr (List.dropWhile_suffix _)
  by_cases hall : ((p.reverse.dropWhile (fun c => !(c == '/'))).reverse.all
      (fun c => c == '/'))
  · simpa [hall] using hh
  · simp only [hall, if_false, Bool.false_eq_true]
    exact (rstripSlashes_pfx _).trans hh

theorem dirname_head? (p : Path) (h : dirname p ≠ []) :
    (dirname p).head? = p.head? :=
  prefix_head? (dirname_pfx p) h

theorem dropWhile_until_slash (l : List Char) (h : '/' ∈ l) :
    (l.dropWhile (fun c => !(c == '/'))).head? = some '/' := by
  induction l with
  | nil => simp at h
  | cons a t ih =>
    by_cases ha : a = '/'
    · subst ha
      simp [List.dropWhile_cons]
    · have ht : '/' ∈ t := by
        rcases List.mem_cons.mp h with h1 | h1
        · exact absurd h1.symm ha
        · exact h1
      simpa [List.dropWhile_cons, ha] using ih ht

theorem rstripSlashes_length_lt (q : Path) (h : q.getLast? = some '/') :
    (rstripSlashes q).length < q.length := by
  unfold rstripSlashes
  have hq : q.reverse.head? = some '/' := by
    rw [List.head?_reverse]
    exact h
  cases hqr : q.reverse with
  | nil =>
    rw [hqr] at hq
    simp at hq
  | cons a t =>
    rw [hqr] at hq
    simp only [List.head?_cons, Option.some.injEq] at hq
    subst hq
    rw [List.dropWhile_cons]
    have h1 : (List.dropWhile (fun c => c == '/') t).length ≤ t.length :=
      (List.dropWhile_suffix _).length_le
    have h2 : q.length = t.length + 1 := by
      have h3 := congrArg List.length hqr
      simpa using h3
    simp only [List.length_reverse]
    rw [if_pos (by simp)]
    omega

theorem dirname_length_lt (p : Path) (hne : p ≠ []) (hrel : p.head? ≠ some '/') :
    (dirname p).length < p.length := by
  unfold dirname
  by_cases hmem : '/' ∈ p
  · have hmemr : '/' ∈ p.reverse := List.mem_reverse.mpr hmem
    have hdh : (p.reverse.dropWhile (fun c => !(c == '/'))).head? = some '/' :=
      dropWhile_until_slash _ hmemr
    have hdne : p.reverse.dropWhile (fun c => !(c == '/')) ≠ [] := by
      intro h0
      rw [h0] at hdh
      simp at hdh
    have hlast : (p.reverse.dropWhile (fun c => !(c == '/'))).reverse.getLast? =
        some '/' := by
      rw [List.getLast?_reverse]
      exact hdh
    have hpfx : (p.reverse.dropWhile (fun c => !(c == '/'))).reverse <+: p := by
      conv_rhs => rw [← List.reverse_reverse p]
      exact List.reverse_prefix.mpr (List.dropWhile_suffix _)
    have hrne : (p.reverse.dropWhile (fun c => !(c == '/'))).reverse ≠ [] := by
      simpa using hdne
    by_cases hall : ((p.reverse.dropWhile (fun c => !(c == '/'))).reverse.all
        (fun c => c == '/'))
    · exfalso
      have hhd := prefix_head? hpfx hrne
      cases hd : (p.reverse.dropWhile (fun c => !(c == '/'))).reverse with
      | nil => exact hrne hd
      | cons b v =>
        rw [hd] at hhd hall
        simp only [List.all_cons, Bool.and_eq_true, beq_iff_eq] at hall
        exact hrel (by rw [← hhd, List.head?_cons, hall.1])
    · simp only [hall, if_false, Bool.false_eq_true]
      have h1 := rstripSlashes_length_lt _ hlast
      have h2 := hpfx.length_le
      omega
  · have hd0 : p.reverse.dropWhile (fun c => !(c == '/')) = [] := by
      rw [List.dropWhile_eq_nil_iff]
      intro x hx
      have hx2 : x ∈ p := List.mem_reverse.mp hx
      have hx3 : x ≠ '/' := fun e => hmem (e ▸ hx2)
      simp [hx3]
    rw [hd0]
    simp only [List.reverse_nil, List.all_nil, if_true]
    simp only [List.length_nil]
    exact List.length_pos.mpr hne

theorem dropWhile_head_not (pred : Char → Bool) (l : List Char) :
    ∀ a t, l.dropWhile pred = a :: t → pred a = false := by
  induction l with
  | nil =>
    intro a t h
    simp at h
  | cons x xs ih =>
    intro a t h
    rw [List.dropWhile_cons] at h
    by_cases hx : pred x = true
    · rw [if_pos hx] at h
      exact ih a t h
    · rw [if_neg hx] at h
      injection h with h1 h2
      rw [← h1]
      exact Bool.eq_false_iff.mpr hx

theorem rstripSlashes_decomp (p : Path) :
    p = rstripSlashes p ++
      List.replicate ((p.reverse.takeWhile (fun c => c == '/')).length) '/' := by
  have h1 : p.reverse.takeWhile (fun c => c == '/') ++
      p.reverse.dropWhile (fun c => c == '/') = p.reverse :=
    List.takeWhile_append_dropWhile _ _
  have h2 := congrArg List.reverse h1
  rw [List.reverse_append, List.reverse_reverse] at h2
  have h3 : (p.reverse.takeWhile (fun c => c == '/')).reverse =
      List.replicate ((p.reverse.takeWhile (fun c => c == '/')).length) '/' := by
    have h4 : p.reverse.takeWhile (fun c => c == '/') =
        List.replicate ((p.reverse.takeWhile (fun c => c == '/')).length) '/' := by
      apply List.eq_replicate_of_mem
      intro b hb
      have h5 := List.mem_takeWhile_imp hb
      simpa using h5
    conv_lhs => rw [h4]
    rw [List.reverse_replicate]
  rw [h3] at h2
  exact h2.symm

theorem stripTrailingSlashes_decomp (p : Path) :
    ∃ k, p = stripTrailingSlashes p ++ List.replicate k '/' := by
  have hdec := rstripSlashes_decomp p
  unfold stripTrailingSlashes
  by_cases hr : rstripSlashes p = []
  · by_cases hp : p = []
    · exact ⟨0, by rw [if_pos hr, if_pos hp, hp]; rfl⟩
    · rw [if_pos hr, if_neg hp]
      rw [hr, List.nil_append] at hdec
      cases hk : (p.reverse.takeWhile (fun c => c == '/')).length with
      | zero =>
        rw [hk] at hdec
        simp at hdec
        exact absurd hdec hp
      | succ m =>
        rw [hk] at hdec
        refine ⟨m, ?_⟩
        rw [hdec, List.replicate_succ]
        rfl
  · rw [if_neg hr]
    exact ⟨_, hdec⟩

theorem stripTrailingSlashes_stop (p : Path) :
    ¬(1 < (stripTrailingSlashes p).length ∧
      (stripTrailingSlashes p).getLast? = some '/') := by
  unfold stripTrailingSlashes
  by_cases hr : rstripSlashes p = []
  · rw [if_pos hr]
    by_cases hp : p = [] <;> simp [hp]
  · rw [if_neg hr]
    intro h
    obtain ⟨h1, h2⟩ := h
    unfold rstripSlashes at h2
    rw [List.getLast?_reverse] at h2
    cases hd : p.reverse.dropWhile (fun c => c == '/') with
    | nil =>
      rw [hd] at h2
      simp at h2
    | cons a t =>
      have h4 := dropWhile_head_not (fun c => c == '/') p.reverse a t hd
      rw [hd] at h2
      simp only [List.head?_cons, Option.some.injEq] at h2
      rw [h2] at h4
      simp at h4

theorem stripTrailingSlashes_ne_nil (p : Path) : p ≠ [] → stripTrailingSlashes p ≠ [] := by
  intro hp
  unfold stripTrailingSlashes
  by_cases hr : rstripSlashes p = []
  · rw [if_pos hr, if_neg hp]
    simp
  · rw [if_neg hr]
    exact hr

theorem stripTrailingSlashes_head? (p : Path) (h : p ≠ []) :
    (stripTrailingSlashes p).head? = p.head? := by
  obtain ⟨k, hk⟩ := stripTrailingSlashes_decomp p
  have hs := stripTrailingSlashes_ne_nil p h
  conv_rhs => rw [hk]
  cases hq : stripTrailingSlashes p with
  | nil => exact absurd hq hs
  | cons a t => simp [hq]

theorem stripTrailingSlashes_hasMagic (p : Path) (h : hasMagic p = false) :
    hasMagic (stripTrailingSlashes p) = false := by
  obtain ⟨k, hk⟩ := stripTrailingSlashes_decomp p
  rw [hk] at h
  unfold hasMagic at h ⊢
  rw [List.any_append] at h
  exact (Bool.or_eq_false_iff.mp h).1

theorem stripTrailingSlashes_ne_slash (p : Path)
    (h : ¬(p.all (fun c => c == '/') = true)) :
    stripTrailingSlashes p ≠ ['/'] := by
  obtain ⟨k, hk⟩ := stripTrailingSlashes_decomp p
  intro h0
  apply h
  rw [hk, h0]
  rw [List.all_eq_true]
  intro x hx
  rcases List.mem_append.mp hx with h1 | h1
  · simp only [List.mem_singleton] at h1
    simp [h1]
  · simp [(List.mem_replicate.mp h1).2]

theorem stripTrailingSlashes_getLast? (p : Path)
    (hne : stripTrailingSlashes p ≠ [])
    (hslash : stripTrailingSlashes p ≠ ['/'])
    (habs : (stripTrailingSlashes p).head? = some '/') :
    (stripTrailingSlashes p).getLast? ≠ some '/' := by
  intro h0
  have hstop := stripTrailingSlashes_stop p
  have hlen : ¬1 < (stripTrailingSlashes p).length := fun h1 => hstop ⟨h1, h0⟩
  cases hq : stripTrailingSlashes p with
  | nil => exact hne hq
  | cons a t =>
    rw [hq] at habs hlen hslash
    simp only [List.head?_cons, Option.some.injEq] at habs
    subst habs
    cases t with
    | nil => exact hslash rfl
    | cons b u => simp at hlen

theorem pfxLoop_nil (fs : FS) (root : Path)
    (hreal : ∀ q : Path, q ≠ [] → q.head? ≠ some '/' → realpath fs q ≠ realpath fs root) :
    ∀ fuel pp, pp.length < fuel → pp.head? ≠ some '/' →
      pfxLoop fs root fuel pp = [] := by
  intro fuel
  induction fuel with
  | zero =>
    intro pp h1 h2
    omega
  | succ n ih =>
    intro pp h1 h2
    by_cases hpp : pp = []
    · subst hpp
      simp [pfxLoop]
    · have hslash : pp ≠ ("/".data) := by
        intro h0
        rw [h0] at h2
        exact h2 rfl
      simp only [pfxLoop]
      rw [if_neg (fun h0 => h0.elim hpp hslash), if_neg (hreal pp hpp h2)]
      apply ih
      · have h3 := dirname_length_lt pp hpp h2
        omega
      · by_cases hd : dirname pp = []
        · rw [hd]
          simp
        · rw [dirname_head? pp hd]
          exact h2

theorem osJoin_rel (a b : Path) (hb : b.head? ≠ some '/') (ha : a ≠ [])
    (hal : a.getLast? ≠ some '/') : osJoin a b = a ++ '/' :: b := by
  unfold osJoin
  rw [if_neg hb, if_neg ha, if_neg hal]

theorem globGlob_no_magic (fs : FS) (pat : Path) (h : hasMagic pat = false) :
    globGlob fs pat = if pathExists fs pat then [pat] else [] := by
  unfold globGlob
  rw [if_neg (by simp [h])]

theorem no_bracket_of_no_magic (p : Path) (h : hasMagic p = false) :
    ∀ x ∈ p, (x == '[') = false := by
  intro x hx
  have h2 : ¬isMagicChar x = true := (List.any_eq_false.mp h) x hx
  unfold isMagicChar at h2
  simp only [Bool.or_eq_true, not_or] at h2
  simpa using h2.2

/-- Evaluation of `parentSearch` on a relative path against an absolute
root: the prefix-separation phase leaves the path unchanged with an
empty matched prefix, the HDU-bracket phase finds no bracket, and the
search loop starts at the stripped root with prefix-stripping on. -/
theorem parentSearch_relative_eval (fs : FS) (root p : Path) (sp : Bool)
    (hrd1 : (stripTrailingSlashes root).head? = some '/')
    (hrd2 : stripTrailingSlashes root ≠ ['/'])
    (hpne : p ≠ []) (hprel : p.head? ≠ some '/')
    (hnobr : ∀ x ∈ p, (x == '[') = false)
    (hreal : ∀ q, q ≠ [] → q.head? ≠ some '/' → realpath fs q ≠ realpath fs root) :
    parentSearch fs root p sp =
      searchLoop fs (stripTrailingSlashes root) p true none sp
        (fs.entries.length + 1) (stripTrailingSlashes root) := by
  have hrdne : stripTrailingSlashes root ≠ [] := by
    intro h0
    rw [h0] at hrd1
    simp at hrd1
  have hb1 : ((stripTrailingSlashes root ++ ['/']).isPrefixOf p) = false := by
    cases hr : stripTrailingSlashes root with
    | nil => exact absurd hr hrdne
    | cons c t =>
      rw [hr] at hrd1
      simp only [List.head?_cons, Option.some.injEq] at hrd1
      subst hrd1
      cases hp : p with
      | nil => exact absurd hp hpne
      | cons d u =>
        rw [hp] at hprel
        have hd : ¬(('/' : Char) == d) = true := by
          simp only [beq_iff_eq]
          intro h0
          exact hprel (by rw [List.head?_cons, h0])
        simp only [List.cons_append, List.isPrefixOf, Bool.and_eq_true]
        simp [hd]
  have hb2 : ¬(stripTrailingSlashes root = ['/'] ∧ p.head? = some '/') := by
    intro h0
    exact hrd2 h0.1
  have hloop : pfxLoop fs root ((dirname p).length + 1) (dirname p) = [] := by
    apply pfxLoop_nil fs root hreal
    · omega
    · by_cases hd : dirname p = []
      · rw [hd]
        simp
      · rw [dirname_head? p hd]
        exact hprel
  have hfb : List.findIdx? (fun c => c == '[') p = none :=
    List.findIdx?_eq_none_iff.mpr hnobr
  have hsp : (!((some ([] : Path)) == some (stripTrailingSlashes root))) = true := by
    have h0 : ((some ([] : Path)) == some (stripTrailingSlashes root)) = false := by
      rw [beq_eq_false_iff_ne]
      intro h1
      exact hrdne (Option.some.inj h1).symm
    rw [h0]
    rfl
  simp only [parentSearch, hb1, Bool.false_eq_true, if_false, if_neg hb2, hloop]
  simp only [if_neg (show ¬(([] : Path) = ['/']) from by simp),
    if_neg (show ¬(([] : Path) ≠ []) from by simp), hfb, hsp]

/-! ## C6: search finds a file present under the root itself -/

/-- C6 (amended): for every absolute root (other than `/`, not made
entirely of slashes, free of glob wildcard characters) and every
relative path `p` free of glob wildcard characters that does not alias
the root through the working directory, if a file exists at `root/p`
then `parentSearch(root, p, searchParents=False)` returns exactly
`[p]`. -/
theorem parentSearch_local_file (fs : FS) (root p : Path)
    (hr0 : root ≠ []) (hrabs : root.head? = some '/')
    (hrns : ¬(root.all (fun c => c == '/') = true))
    (hrmagic : hasMagic root = false)
    (hpne : p ≠ []) (hprel : p.head? ≠ some '/') (hpmagic : hasMagic p = false)
    (hreal : ∀ q, q ≠ [] → q.head? ≠ some '/' → realpath fs q ≠ realpath fs root)
    (hex : pathExists fs (osJoin (stripTrailingSlashes root) p) = true) :
    parentSearch fs root p false = some [p] := by
  have hrdne : stripTrailingSlashes root ≠ [] := stripTrailingSlashes_ne_nil root hr0
  have hrd1 : (stripTrailingSlashes root).head? = some '/' := by
    rw [stripTrailingSlashes_head? root hr0]
    exact hrabs
  have hrd2 : stripTrailingSlashes root ≠ ['/'] := stripTrailingSlashes_ne_slash root hrns
  have hrdl : (stripTrailingSlashes root).getLast? ≠ some '/' :=
    stripTrailingSlashes_getLast? root hrdne hrd2 hrd1
  have hrdm : hasMagic (stripTrailingSlashes root) = false :=
    stripTrailingSlashes_hasMagic root hrmagic
  rw [parentSearch_relative_eval fs root p false hrd1 hrd2 hpne hprel
    (no_bracket_of_no_magic p hpmagic) hreal]
  have hjoin : osJoin (stripTrailingSlashes root) p =
      stripTrailingSlashes root ++ '/' :: p :=
    osJoin_rel _ _ hprel hrdne hrdl
  have hpm : hasMagic (osJoin (stripTrailingSlashes root) p) = false := by
    rw [hjoin]
    unfold hasMagic at hrdm hpmagic ⊢
    rw [List.any_append, hrdm, List.any_cons, hpmagic]
    rfl
  have hglob : globGlob fs (osJoin (stripTrailingSlashes root) p) =
      [osJoin (stripTrailingSlashes root) p] := by
    rw [globGlob_no_magic _ _ hpm, if_pos hex]
  have hdrop : (stripTrailingSlashes root ++ '/' :: p).drop
      ((stripTrailingSlashes root).length + 1) = p := by
    have h1 : stripTrailingSlashes root ++ '/' :: p =
        (stripTrailingSlashes root ++ ['/']) ++ p := by
      simp
    rw [h1]
    exact List.drop_left' (by simp)
  simp only [searchLoop, hglob, List.isEmpty_cons]
  rw [if_neg (show ¬(false = true) from by simp)]
  simp only [if_true, List.map_cons, List.map_nil]
  rw [hjoin, hdrop]

/-- Witness: the C6 theorem applied at a concrete root and file. -/
theorem parentSearch_local_file_witness :
    parentSearch ⟨[(("/r".data), .dir), (("/r/p".data), .textData [])], ("/c".data)⟩
      ("/r".data) ("p".data) false = some [("p".data)] := by
  apply parentSearch_local_file
  · decide
  · decide
  · decide
  · decide
  · decide
  · decide
  · decide
  · intro q hq hrel
    simp only [realpath]
    rw [if_neg hrel, if_pos (show ("/r".data).head? = some '/' from rfl)]
    show osJoin ("/c".data) q ≠ ("/r".data)
    unfold osJoin
    rw [if_neg hrel, if_neg (show ¬("/c".data : Path) = [] from by decide),
      if_neg (show ¬("/c".data : Path).getLast? = some '/' from by decide)]
    intro h0
    have h1 : ('/' :: 'c' :: '/' :: q) = ['/', 'r'] := h0
    simp at h1
  · decide

/-- C1 (amended): for a chain of two repository roots where the root's
parent linkage `_parent` leads to the ancestor and a file exists only
under the ancestor at relative path `p` (that is, at
`root/_parent/p` but not at `root/p`),
`parentSearch(root, p, searchParents=True)` returns the one-element
list `["_parent/" ++ p]` — the match rewritten relative to the root
through the parent linkage — and
`parentSearch(root, p, searchParents=False)` returns not-found.  Root
and path are wildcard-free, the root is absolute and not `/`, and the
path is relative, as in the C6 theorem. -/
theorem parentSearch_parent_fallthrough (fs : FS) (root p : Path)
    (hr0 : root ≠ []) (hrabs : root.head? = some '/')
    (hrns : ¬(root.all (fun c => c == '/') = true))
    (hrmagic : hasMagic root = false)
    (hpne : p ≠ []) (hprel : p.head? ≠ some '/') (hpmagic : hasMagic p = false)
    (hreal : ∀ q, q ≠ [] → q.head? ≠ some '/' → realpath fs q ≠ realpath fs root)
    (hnoloc : pathExists fs (osJoin (stripTrailingSlashes root) p) = false)
    (hpar : pathExists fs (osJoin (stripTrailingSlashes root) ("_parent".data)) = true)
    (hex : pathExists fs
      (osJoin (osJoin (stripTrailingSlashes root) ("_parent".data)) p) = true) :
    parentSearch fs root p true = some [("_parent/".data) ++ p] ∧
    parentSearch fs root p false = none := by
  have hrdne : stripTrailingSlashes root ≠ [] := stripTrailingSlashes_ne_nil root hr0
  have hrd1 : (stripTrailingSlashes root).head? = some '/' := by
    rw [stripTrailingSlashes_head? root hr0]
    exact hrabs
  have hrd2 : stripTrailingSlashes root ≠ ['/'] := stripTrailingSlashes_ne_slash root hrns
  have hrdl : (stripTrailingSlashes root).getLast? ≠ some '/' :=
    stripTrailingSlashes_getLast? root hrdne hrd2 hrd1
  have hrdm : hasMagic (stripTrailingSlashes root) = false :=
    stripTrailingSlashes_hasMagic root hrmagic
  have hjoin : osJoin (stripTrailingSlashes root) p =
      stripTrailingSlashes root ++ '/' :: p :=
    osJoin_rel _ _ hprel hrdne hrdl
  have hpm : hasMagic (osJoin (stripTrailingSlashes root) p) = false := by
    rw [hjoin]
    unfold hasMagic at hrdm hpmagic ⊢
    rw [List.any_append, hrdm, List.any_cons, hpmagic]
    rfl
  have hglob1 : globGlob fs (osJoin (stripTrailingSlashes root) p) = [] := by
    rw [globGlob_no_magic _ _ hpm, if_neg (by rw [hnoloc]; simp)]
  have hd2 : osJoin (stripTrailingSlashes root) ("_parent".data) =
      stripTrailingSlashes root ++ '/' :: ("_parent".data) :=
    osJoin_rel _ _ (by decide) hrdne hrdl
  have hd2ne : osJoin (stripTrailingSlashes root) ("_parent".data) ≠ [] := by
    rw [hd2]
    simp
  have hd2l : (osJoin (stripTrailingSlashes root) ("_parent".data)).getLast? ≠
      some '/' := by
    rw [hd2, List.getLast?_append]
    have h0 : ('/' :: ("_parent".data)).getLast? = some 't' := by decide
    rw [h0]
    simp
  have hjoin2 : osJoin (osJoin (stripTrailingSlashes root) ("_parent".data)) p =
      stripTrailingSlashes root ++ '/' :: (("_parent".data) ++ '/' :: p) := by
    rw [osJoin_rel _ _ hprel hd2ne hd2l, hd2]
    simp
  have hpm2 : hasMagic (osJoin (osJoin (stripTrailingSlashes root) ("_parent".data)) p) =
      false := by
    rw [hjoin2]
    unfold hasMagic at hrdm hpmagic ⊢
    rw [List.any_append, hrdm]
    simp only [List.any_cons, List.any_append, hpmagic, Bool.or_false, Bool.false_or]
    decide
  have hglob2 : globGlob fs (osJoin (osJoin (stripTrailingSlashes root)
      ("_parent".data)) p) =
      [osJoin (osJoin (stripTrailingSlashes root) ("_parent".data)) p] := by
    rw [globGlob_no_magic _ _ hpm2, if_pos hex]
  have hdrop : (stripTrailingSlashes root ++ '/' :: (("_parent".data) ++ '/' :: p)).drop
      ((stripTrailingSlashes root).length + 1) = ("_parent/".data) ++ p := by
    have h1 : stripTrailingSlashes root ++ '/' :: (("_parent".data) ++ '/' :: p) =
        (stripTrailingSlashes root ++ ['/']) ++ (("_parent".data) ++ '/' :: p) := by
      simp
    rw [h1, List.drop_left' (by simp)]
    rfl
  obtain ⟨M, hM⟩ : ∃ M, fs.entries.length = M + 1 := by
    have hne : fs.entries ≠ [] := by
      intro h0
      rw [pathExists, FS.get, h0] at hpar
      simp [List.find?] at hpar
    cases hE : fs.entries with
    | nil => exact absurd hE hne
    | cons e t => exact ⟨t.length, by simp [hE]⟩
  constructor
  · rw [parentSearch_relative_eval fs root p true hrd1 hrd2 hpne hprel
      (no_bracket_of_no_magic p hpmagic) hreal, hM]
    simp only [searchLoop, hglob1, List.isEmpty_nil, if_true, hpar, hglob2,
      List.isEmpty_cons]
    rw [if_neg (show ¬(false = true) from by simp)]
    simp only [if_true, List.map_cons, List.map_nil]
    rw [hjoin2, hdrop]
  · rw [parentSearch_relative_eval fs root p false hrd1 hrd2 hpne hprel
      (no_bracket_of_no_magic p hpmagic) hreal]
    simp only [searchLoop, hglob1, List.isEmpty_nil, if_true, Bool.false_eq_true,
      if_false]

/-- Witness: the C1 theorem applied at a concrete two-repository chain
with the dataset only under the parent. -/
theorem parentSearch_parent_fallthrough_witness :
    parentSearch ⟨[(("/r0".data), .dir), (("/r0/_parent".data), .dir),
        (("/r0/_parent/f".data), .textData [])], ("/c".data)⟩
      ("/r0".data) ("f".data) true = some [("_parent/f".data)] ∧
    parentSearch ⟨[(("/r0".data), .dir), (("/r0/_parent".data), .dir),
        (("/r0/_parent/f".data), .textData [])], ("/c".data)⟩
      ("/r0".data) ("f".data) false = none := by
  have h := parentSearch_parent_fallthrough
    ⟨[(("/r0".data), .dir), (("/r0/_parent".data), .dir),
      (("/r0/_parent/f".data), .textData [])], ("/c".data)⟩
    ("/r0".data) ("f".data)
    (by decide) (by decide) (by decide) (by decide) (by decide) (by decide) (by decide)
    (by
      intro q hq hrel
      simp only [realpath]
      rw [if_neg hrel, if_pos (show ("/r0".data).head? = some '/' from rfl)]
      show osJoin ("/c".data) q ≠ ("/r0".data)
      unfold osJoin
      rw [if_neg hrel, if_neg (show ¬("/c".data : Path) = [] from by decide),
        if_neg (show ¬("/c".data : Path).getLast? = some '/' from by decide)]
      intro h0
      have h1 : ('/' :: 'c' :: '/' :: q) = ['/', 'r', '0'] := h0
      simp at h1)
    (by decide) (by decide) (by decide)
  simpa using h

/-- Counterexample to C1 as literally stated: with the parent linkage
leading to the ancestor holding the only copy of `f`, the search with
`followParents=true` succeeds but returns `["_parent/f"]`, not `["f"]`:
the match is rewritten relative to the starting root through the
linkage, keeping the `_parent` component. -/
theorem parentSearch_parent_fallthrough_counterexample :
    pathExists ⟨[(("/r0".data), .dir), (("/r0/_parent".data), .dir),
        (("/r0/_parent/f".data), .textData [])], ("/c".data)⟩
      ("/r0/_parent/f".data) = true ∧
    pathExists ⟨[(("/r0".data), .dir), (("/r0/_parent".data), .dir),
        (("/r0/_parent/f".data), .textData [])], ("/c".data)⟩
      ("/r0/f".data) = false ∧
    parentSearch ⟨[(("/r0".data), .dir), (("/r0/_parent".data), .dir),
        (("/r0/_parent/f".data), .textData [])], ("/c".data)⟩
      ("/r0".data) ("f".data) true = some [("_parent/f".data)] ∧
    parentSearch ⟨[(("/r0".data), .dir), (("/r0/_parent".data), .dir),
        (("/r0/_parent/f".data), .textData [])], ("/c".data)⟩
      ("/r0".data) ("f".data) true ≠ some [("f".data)] := by
  decide

/-- Counterexample to C6 as literally stated (for every root and every
relative path): a file whose own name contains a bracket is never found,
because the bracket and everything after it are stripped before
globbing; and a root containing a glob wildcard can produce a list
different from `[P]` even though a file exists at `R/P`. -/
theorem parentSearch_local_file_counterexample :
    (pathExists ⟨[(("/r".data), .dir), (("/r/a[1]".data), .textData [])], ("/c".data)⟩
        ("/r/a[1]".data) = true ∧
      parentSearch ⟨[(("/r".data), .dir), (("/r/a[1]".data), .textData [])], ("/c".data)⟩
        ("/r".data) ("a[1]".data) false = none) ∧
    (pathExists ⟨[(("/r?".data), .dir), (("/r?/p".data), .textData []),
        (("/ra/p".data), .textData [])], ("/c".data)⟩ ("/r?/p".data) = true ∧
      parentSearch ⟨[(("/r?".data), .dir), (("/r?/p".data), .textData []),
        (("/ra/p".data), .textData [])], ("/c".data)⟩
        ("/r?".data) ("p".data) false = some [("p".data), ("p".data)]) := by
  decide

end DafP
